import Mathlib

/-!
Verification development for the speech-to-text-websocket frontend.

The embedded code:
* `frontend/src/App.jsx` (src/unnamed/part_002): the WebSocket message
  handlers — the transcript reconciler inside `ws.onmessage`
  (lines 117-139), the summary branch (lines 112-115), the `setup`
  message sent in `ws.onopen` (lines 100-106), and the audio forwarding
  guard in `proc.port.onmessage` (lines 151-161).
* `frontend/public/audio-processor.js` (src/unnamed/part_001): the
  `AudioProcessor` worklet — `process` (lines 9-33) and
  `convertTo16BitPCM` (lines 35-43); src/unnamed/part_005 contains an
  earlier worklet with the same per-sample PCM conversion inline.

The backend (FastAPI server) is not part of the available sources; the
shape of the messages it sends is modelled from the spec (§6): a
`transcript` message carries one boolean finality flag `isFinal`
together with `text`, `speaker` and a timestamp, and a `summary`
message carries `text` and `timestamp`.  In the JavaScript the handler
reads the flag both as `data.is_final` and as `line.isFinal`; under the
spec's message shape both denote the same boolean, which the embedding
represents by the single field `Line.isFinal`.
-/

namespace SpeechToText

/-- One entry of the `lines` state of `App`.  Modelled from the spec:
the backend's `transcript` message `{ isFinal, text, speaker, ... }`
(spec §6); the object is stored into `lines` wholesale by the handler. -/
structure Line where
  text : String
  speaker : String
  timestamp : String
  isFinal : Bool
deriving DecidableEq

/-- The transcript branch of `ws.onmessage` (App.jsx lines 117-139),
acting on the `lines` state `prev` when the message `data` arrives:
a final result keeps only the final entries of `prev` and appends
`data`; an interim result overwrites the last entry when that entry is
open (non-final), and appends a new entry otherwise. -/
def reconcileStep (prev : List Line) (data : Line) : List Line :=
  if data.isFinal then
    prev.filter (fun line => line.isFinal) ++ [data]
  else
    match prev.getLast? with
    | some lastLine =>
      if lastLine.isFinal then prev ++ [data]
      else prev.dropLast ++ [data]
    | none => prev ++ [data]

/-- Processing a sequence of recognition results strictly in the order
received (the handler fires once per message). -/
def processResults (init : List Line) (results : List Line) : List Line :=
  results.foldl reconcileStep init

/-- The structural invariant of the `lines` state: every entry except
possibly the last one is final. -/
def openOnlyAtEnd (s : List Line) : Prop :=
  ∀ l ∈ s.dropLast, l.isFinal = true

/-- `this.bufferSize` of the `AudioProcessor` worklet
(audio-processor.js line 4). -/
def bufferSize : Nat := 4096

/-- `Math.max(-1, Math.min(1, x))` (audio-processor.js line 39).  Audio
samples are modelled as rationals; every operation the worklet performs
on them (clamping, multiplication by 0x8000 or 0x7FFF, truncation) is
exact in IEEE double arithmetic for float32 inputs, so the rational
model coincides with the JavaScript semantics. -/
def clamp (x : ℚ) : ℚ := max (-1) (min 1 x)

/-- Truncation toward zero, the integer conversion JavaScript applies
when a number is stored into an `Int16Array` element. -/
def ratTrunc (q : ℚ) : ℤ := if q < 0 then -⌊-q⌋ else ⌊q⌋

/-- Wrap an integer into the signed 16-bit range, the final step of
JavaScript's ToInt16 on storing into an `Int16Array`. -/
def toInt16 (n : ℤ) : ℤ := (n + 32768) % 65536 - 32768

/-- One iteration of the conversion loop
(audio-processor.js lines 38-40, identically part_005 lines 18-19):
`s = Math.max(-1, Math.min(1, x)); s < 0 ? s * 0x8000 : s * 0x7FFF`
stored into an `Int16Array` slot. -/
def convertSample (x : ℚ) : ℤ :=
  toInt16 (ratTrunc (if clamp x < 0 then clamp x * 32768 else clamp x * 32767))

/-- `AudioProcessor.convertTo16BitPCM` (audio-processor.js lines 35-43):
element-wise conversion, output length equals input length. -/
def convertTo16BitPCM (float32Array : List ℚ) : List ℤ :=
  float32Array.map convertSample

/-- The message posted by the worklet when its buffer fills
(audio-processor.js lines 23-27): `{ type: 'audio', source, audio }`. -/
structure WorkletMsg where
  type : String
  source : String
  audio : List ℤ
deriving DecidableEq

/-- The worklet's mutable state: the 4096-slot `Float32Array` together
with `bufferIndex` is represented by the list of the samples written
since the last emission (the slots at index ≥ `bufferIndex` are never
read before being overwritten); `emitted` collects the messages posted
so far, in order. -/
structure ProcState where
  pendingBuffer : List ℚ
  emitted : List WorkletMsg
deriving DecidableEq

/-- Worklet state right after the constructor (audio-processor.js
lines 2-7): empty buffer, index 0, nothing posted. -/
def initState : ProcState := ⟨[], []⟩

/-- One iteration of the fill loop (audio-processor.js lines 17-29):
`this.buffer[this.bufferIndex++] = x`, and when the buffer is full the
converted PCM is posted with the call's source tag and the index reset. -/
def writeSample (st : ProcState) (source : String) (x : ℚ) : ProcState :=
  if (st.pendingBuffer ++ [x]).length = bufferSize then
    { pendingBuffer := [],
      emitted := st.emitted
        ++ [{ type := "audio", source := source,
              audio := convertTo16BitPCM (st.pendingBuffer ++ [x]) }] }
  else
    { pendingBuffer := st.pendingBuffer ++ [x], emitted := st.emitted }

/-- `AudioProcessor.process` (audio-processor.js lines 9-33) for one
callback: `none` models `!input || !input[0]` (no channel — immediate
return); otherwise the source tag is computed from the channel length
and the fill loop runs over the channel's samples. -/
def process (st : ProcState) (input : Option (List ℚ)) : ProcState :=
  match input with
  | none => st
  | some inputChannel =>
    let source := if inputChannel.length > 0 then "mic" else "display"
    inputChannel.foldl (fun s x => writeSample s source x) st

/-- A sequence of `process` callbacks. -/
def processCalls (st : ProcState) (calls : List (Option (List ℚ))) : ProcState :=
  calls.foldl process st

/-- Correspondence between the samples ingested so far and the worklet
state: the posted frames are the converted full 4096-sample groups of
the ingested stream in order, the pending buffer is the residual
suffix, every posted frame holds exactly 4096 samples, and the counts
add up. -/
def Rep (ingested : List ℚ) (st : ProcState) : Prop :=
  (st.emitted.map WorkletMsg.audio).flatten
      = convertTo16BitPCM (ingested.take (bufferSize * st.emitted.length))
    ∧ st.pendingBuffer = ingested.drop (bufferSize * st.emitted.length)
    ∧ st.emitted.all (fun m => m.audio.length == bufferSize) = true
    ∧ st.pendingBuffer.length < bufferSize
    ∧ bufferSize * st.emitted.length + st.pendingBuffer.length = ingested.length

/-- A summary message's payload.  Modelled from the spec: the backend's
`summary` message carries the generated text and a timestamp (§6); the
handler stores the received object wholesale. -/
structure SummaryData where
  text : String
  timestamp : String
deriving DecidableEq

/-- A message arriving on the session WebSocket, dispatched by
`ws.onmessage` on its `type` field (App.jsx lines 108-139): `summary`,
`transcript`, or anything else (ignored). -/
inductive ServerMsg where
  | summary (d : SummaryData)
  | transcript (l : Line)
  | other
deriving DecidableEq

/-- The `App` component state touched by `ws.onmessage`: the `lines`
list and the `currentSummary` slot (App.jsx lines 8 and 14). -/
structure AppState where
  lines : List Line
  currentSummary : Option SummaryData
deriving DecidableEq

/-- `ws.onmessage` (App.jsx lines 108-140): a summary message replaces
`currentSummary` and returns; a transcript message updates `lines`
through the reconciliation rule; other messages change nothing. -/
def wsOnMessage (st : AppState) (m : ServerMsg) : AppState :=
  match m with
  | .summary d => { st with currentSummary := some d }
  | .transcript l => { st with lines := reconcileStep st.lines l }
  | .other => st

/-- The `speakers` state sent in the setup message (App.jsx lines 10-13). -/
structure Speakers where
  panelist : String
  candidate : String

/-- A JSON value, as far as the messages built by App.jsx need: strings
and objects with ordered string-keyed fields. -/
inductive Json where
  | str (s : String)
  | obj (fields : List (String × Json))

/-- The object serialized and sent by `ws.onopen` (App.jsx lines
100-106): `{ type: "setup", speakers: { panelist, candidate } }`. -/
def setupMessage (speakers : Speakers) : Json :=
  Json.obj [("type", Json.str "setup"),
    ("speakers", Json.obj [("panelist", Json.str speakers.panelist),
      ("candidate", Json.str speakers.candidate)])]

/-- All messages sent by the `ws.onopen` handler, in order: exactly the
one setup message. -/
def onopenMessages (speakers : Speakers) : List Json :=
  [setupMessage speakers]

/-- The field keys of the top level of a JSON value. -/
def Json.topKeys : Json → List String
  | .str _ => []
  | .obj fields => fields.map Prod.fst

/-- Every field key occurring in a JSON value of nesting depth at most
two — enough for every message App.jsx builds. -/
def Json.allKeys : Json → List String
  | .str _ => []
  | .obj fields =>
      fields.map Prod.fst ++ fields.flatMap (fun p => Json.topKeys p.2)

/-- Look up a top-level string field. -/
def Json.getStr (j : Json) (k : String) : Option String :=
  match j with
  | .obj fields =>
    match fields.lookup k with
    | some (.str s) => some s
    | _ => none
  | _ => none

/-- Look up a top-level object field. -/
def Json.getObj (j : Json) (k : String) : Option Json :=
  match j with
  | .obj fields =>
    match fields.lookup k with
    | some (.obj fs) => some (Json.obj fs)
    | _ => none
  | _ => none

/-- The message sent over the WebSocket for one worklet audio frame
(App.jsx lines 154-158): `{ type: "audio", source, data }`. -/
structure AudioOutMsg where
  type : String
  source : String
  data : List ℤ
deriving DecidableEq

/-- `proc.port.onmessage` (App.jsx lines 151-161): the frame is sent iff
`ws.readyState === 1`; otherwise nothing happens (no buffering). -/
def portOnMessage (readyState : Nat) (e : WorkletMsg) : List AudioOutMsg :=
  if readyState = 1 then
    [{ type := "audio", source := e.source, data := e.audio }]
  else
    []

/-- All messages sent over the channel for a sequence of worklet frames,
each arriving while the socket has the paired ready state. -/
def sentMessages (events : List (Nat × WorkletMsg)) : List AudioOutMsg :=
  events.flatMap (fun p => portOnMessage p.1 p.2)

theorem reconcileStep_final (s : List Line) (r : Line) (hr : r.isFinal = true) :
    reconcileStep s r = s.filter (fun l => l.isFinal) ++ [r] := by
  simp [reconcileStep, hr]

theorem reconcileStep_nil (r : Line) (hr : r.isFinal = false) :
    reconcileStep [] r = [r] := by
  simp [reconcileStep, hr]

theorem reconcileStep_last_final (L : List Line) (b r : Line)
    (hr : r.isFinal = false) (hb : b.isFinal = true) :
    reconcileStep (L ++ [b]) r = (L ++ [b]) ++ [r] := by
  simp [reconcileStep, hr, hb, List.getLast?_concat]

theorem reconcileStep_last_open (L : List Line) (b r : Line)
    (hr : r.isFinal = false) (hb : b.isFinal = false) :
    reconcileStep (L ++ [b]) r = L ++ [r] := by
  simp [reconcileStep, hr, hb, List.getLast?_concat, List.dropLast_concat]

/-- The final entries of the list are untouched by a step: the step only
appends the incoming final (when the result is final). -/
theorem filter_reconcileStep (s : List Line) (r : Line) :
    (reconcileStep s r).filter (fun l => l.isFinal)
      = s.filter (fun l => l.isFinal) ++ (if r.isFinal then [r] else []) := by
  by_cases hr : r.isFinal
  · simp [reconcileStep_final s r hr, hr, List.filter_append, List.filter_filter]
  · rcases s.eq_nil_or_concat with rfl | ⟨L, b, rfl⟩
    · simp [reconcileStep_nil r (by simpa using hr), hr]
    · rw [List.concat_eq_append]
      by_cases hb : b.isFinal
      · rw [reconcileStep_last_final L b r (by simpa using hr) hb]
        simp [hr, hb, List.filter_append, List.filter_cons]
      · rw [reconcileStep_last_open L b r (by simpa using hr) (by simpa using hb)]
        simp [hr, hb, List.filter_append]

/-- Interim results never change the set of final entries. -/
theorem filter_processResults (s : List Line) (ints : List Line)
    (h : ∀ i ∈ ints, i.isFinal = false) :
    (processResults s ints).filter (fun l => l.isFinal)
      = s.filter (fun l => l.isFinal) := by
  induction ints generalizing s with
  | nil => rfl
  | cons i ints ih =>
    have hi : i.isFinal = false := h i (by simp)
    have hrest : ∀ j ∈ ints, j.isFinal = false := fun j hj => h j (by simp [hj])
    calc (processResults (reconcileStep s i) ints).filter (fun l => l.isFinal)
        = (reconcileStep s i).filter (fun l => l.isFinal) := ih _ hrest
      _ = s.filter (fun l => l.isFinal) := by
          rw [filter_reconcileStep]; simp [hi]

theorem openOnlyAtEnd_nil : openOnlyAtEnd [] := by
  intro l hl; simp at hl

theorem openOnlyAtEnd_reconcileStep (s : List Line) (r : Line)
    (hs : openOnlyAtEnd s) : openOnlyAtEnd (reconcileStep s r) := by
  by_cases hr : r.isFinal
  · intro l hl
    rw [reconcileStep_final s r hr, List.dropLast_concat] at hl
    exact (List.mem_filter.mp hl).2
  · rcases s.eq_nil_or_concat with rfl | ⟨L, b, rfl⟩
    · intro l hl
      rw [reconcileStep_nil r (by simpa using hr)] at hl
      simp at hl
    · rw [List.concat_eq_append]
      by_cases hb : b.isFinal
      · intro l hl
        rw [reconcileStep_last_final L b r (by simpa using hr) hb,
          List.dropLast_concat] at hl
        rcases List.mem_append.mp hl with hL | hbm
        · exact hs l (by simpa [List.dropLast_concat] using hL)
        · simp at hbm; subst hbm; exact hb
      · intro l hl
        rw [reconcileStep_last_open L b r (by simpa using hr) (by simpa using hb),
          List.dropLast_concat] at hl
        exact hs l (by simpa [List.dropLast_concat] using hl)

theorem openOnlyAtEnd_processResults (s : List Line) (results : List Line)
    (hs : openOnlyAtEnd s) : openOnlyAtEnd (processResults s results) := by
  induction results generalizing s with
  | nil => exact hs
  | cons r results ih => exact ih _ (openOnlyAtEnd_reconcileStep s r hs)

theorem countP_le_one_of_openOnlyAtEnd (s : List Line)
    (hs : openOnlyAtEnd s) :
    s.countP (fun l => !l.isFinal) ≤ 1 := by
  rcases s.eq_nil_or_concat with rfl | ⟨L, b, rfl⟩
  · simp
  · have hL : L.countP (fun l => !l.isFinal) = 0 := by
      rw [List.countP_eq_zero]
      intro a ha
      have : a.isFinal = true := hs a (by simpa [List.dropLast_concat] using ha)
      simp [this]
    rw [List.concat_eq_append, List.countP_append, hL]
    cases hb : b.isFinal <;> simp [List.countP_cons, hb]

/-- C1: an interim result replaces the open interim segment (creating one
if none is open) and a final result closes it, appends the final segment
and clears the open slot: after any sequence of interim results followed
by one final result `f`, the `lines` state equals the final entries of
the starting state followed by `f` alone, and no interim entry remains. -/
theorem claim1_interims_then_final (s ints : List Line) (f : Line)
    (hints : ∀ i ∈ ints, i.isFinal = false) (hf : f.isFinal = true) :
    processResults s (ints ++ [f]) = s.filter (fun l => l.isFinal) ++ [f]
      ∧ (processResults s (ints ++ [f])).countP (fun l => !l.isFinal) = 0 := by
  have hmain : processResults s (ints ++ [f])
      = s.filter (fun l => l.isFinal) ++ [f] := by
    unfold processResults
    rw [List.foldl_append]
    simp only [List.foldl_cons, List.foldl_nil]
    rw [reconcileStep_final _ f hf,
      show List.foldl reconcileStep s ints = processResults s ints from rfl,
      filter_processResults s ints hints]
  refine ⟨hmain, ?_⟩
  rw [hmain, List.countP_append]
  have h1 : (s.filter (fun l => l.isFinal)).countP (fun l => !l.isFinal) = 0 := by
    rw [List.countP_eq_zero]
    intro a ha
    have ha2 := (List.mem_filter.mp ha).2
    simp [ha2]
  simp [h1, hf]

/-- Scenario A witness for C1: interim "Hel", interim "Hello", final
"Hello there" from the empty log yields exactly one final segment with
text "Hello there" and no open interim segment. -/
theorem claim1_witness :
    (∀ i ∈ [Line.mk "Hel" "" "" false, Line.mk "Hello" "" "" false],
        i.isFinal = false)
    ∧ (Line.mk "Hello there" "Candidate" "00:00" true).isFinal = true
    ∧ processResults []
        ([Line.mk "Hel" "" "" false, Line.mk "Hello" "" "" false]
          ++ [Line.mk "Hello there" "Candidate" "00:00" true])
      = [Line.mk "Hello there" "Candidate" "00:00" true] := by
  refine ⟨by decide, rfl, ?_⟩
  have h := claim1_interims_then_final []
    [Line.mk "Hel" "" "" false, Line.mk "Hello" "" "" false]
    (Line.mk "Hello there" "Candidate" "00:00" true) (by decide) rfl
  simpa using h.1

/-- C2: invariant preserved by every transcript-result processing step —
starting from the empty list, after any sequence of interim and final
results the number of entries with `isFinal = false` is at most 1. -/
theorem claim2_at_most_one_interim (results : List Line) :
    (processResults [] results).countP (fun l => !l.isFinal) ≤ 1 :=
  countP_le_one_of_openOnlyAtEnd _
    (openOnlyAtEnd_processResults [] results openOnlyAtEnd_nil)

/-- C3: final entries present before a step are present, unmodified and
in the same relative order after the step — the final entries of the new
state are exactly the old final entries, plus the incoming result
appended at the end when it is final. -/
theorem claim3_finals_immutable (s : List Line) (r : Line) :
    (reconcileStep s r).filter (fun l => l.isFinal)
      = s.filter (fun l => l.isFinal) ++ (if r.isFinal then [r] else []) :=
  filter_reconcileStep s r

/-- C4: when an interim result arrives while the last entry is open
(non-final), the step replaces that entry's content without changing the
length of the transcript list. -/
theorem claim4_interim_replace_keeps_length (s : List Line) (lastL r : Line)
    (hlast : s.getLast? = some lastL) (hl : lastL.isFinal = false)
    (hr : r.isFinal = false) :
    (reconcileStep s r).length = s.length := by
  rcases s.eq_nil_or_concat with rfl | ⟨L, b, rfl⟩
  · simp at hlast
  · rw [List.concat_eq_append] at hlast ⊢
    rw [List.getLast?_concat] at hlast
    have hb : b = lastL := Option.some_inj.mp hlast
    rw [reconcileStep_last_open L b r hr (by rw [hb]; exact hl)]
    simp

/-- Witness for C4 at a concrete state: an interim "Hello" replacing the
open interim "Hel" keeps the entry count at 1. -/
theorem claim4_witness :
    ([Line.mk "Hel" "" "" false].getLast? = some (Line.mk "Hel" "" "" false))
    ∧ (Line.mk "Hel" "" "" false).isFinal = false
    ∧ (Line.mk "Hello" "" "" false).isFinal = false
    ∧ (reconcileStep [Line.mk "Hel" "" "" false]
        (Line.mk "Hello" "" "" false)).length
        = [Line.mk "Hel" "" "" false].length :=
  ⟨rfl, rfl, rfl,
    claim4_interim_replace_keeps_length _ _ _ rfl rfl rfl⟩

theorem convert_append (a b : List ℚ) :
    convertTo16BitPCM (a ++ b) = convertTo16BitPCM a ++ convertTo16BitPCM b :=
  List.map_append convertSample a b

theorem convert_length (a : List ℚ) :
    (convertTo16BitPCM a).length = a.length :=
  List.length_map a convertSample

theorem bufferSize_eq : bufferSize = 4096 := rfl

theorem rep_writeSample (ing : List ℚ) (st : ProcState) (src : String) (x : ℚ)
    (h : Rep ing st) : Rep (ing ++ [x]) (writeSample st src x) := by
  obtain ⟨hjoin, hpend, hall, hlt, hcount⟩ := h
  have hcount' : 4096 * st.emitted.length + st.pendingBuffer.length = ing.length := by
    simpa [bufferSize_eq] using hcount
  have hlt' : st.pendingBuffer.length < 4096 := by
    simpa [bufferSize_eq] using hlt
  have hkle : bufferSize * st.emitted.length ≤ ing.length := by
    rw [bufferSize_eq]; omega
  by_cases hfull : (st.pendingBuffer ++ [x]).length = bufferSize
  · have hfull' : st.pendingBuffer.length + 1 = 4096 := by
      simpa [bufferSize_eq] using hfull
    have hw : writeSample st src x
        = { pendingBuffer := [],
            emitted := st.emitted
              ++ [{ type := "audio", source := src,
                    audio := convertTo16BitPCM (st.pendingBuffer ++ [x]) }] } := by
      rw [writeSample, if_pos hfull]
    have hlenfull : (ing ++ [x]).length
        = bufferSize * (st.emitted.length + 1) := by
      rw [bufferSize_eq]
      simp only [List.length_append, List.length_cons, List.length_nil]
      omega
    unfold Rep
    rw [hw]
    dsimp only
    refine ⟨?_, ?_, ?_, ?_, ?_⟩
    · rw [List.map_append, List.flatten_append, hjoin, hpend]
      simp only [List.map_cons, List.map_nil, List.flatten_cons, List.flatten_nil,
        List.append_nil]
      rw [← convert_append, ← List.append_assoc, List.take_append_drop]
      simp only [List.length_append, List.length_cons, List.length_nil]
      rw [← hlenfull, List.take_length]
    · simp only [List.length_append, List.length_cons, List.length_nil]
      rw [← hlenfull, List.drop_length]
    · rw [List.all_append, hall]
      simp [convert_length, hfull]
    · rw [bufferSize_eq]; simp
    · simp only [List.length_append, List.length_cons, List.length_nil,
        bufferSize_eq] at hcount' ⊢
      omega
  · have hw : writeSample st src x
        = { pendingBuffer := st.pendingBuffer ++ [x], emitted := st.emitted } := by
      rw [writeSample, if_neg hfull]
    have hfull' : st.pendingBuffer.length + 1 ≠ 4096 := by
      intro hc
      exact hfull (by simp [bufferSize_eq, hc])
    unfold Rep
    rw [hw]
    dsimp only
    refine ⟨?_, ?_, hall, ?_, ?_⟩
    · rw [List.take_append_of_le_length hkle]
      exact hjoin
    · rw [List.drop_append_of_le_length hkle, ← hpend]
    · rw [bufferSize_eq]
      simp only [List.length_append, List.length_cons, List.length_nil]
      omega
    · rw [bufferSize_eq]
      simp only [List.length_append, List.length_cons, List.length_nil]
      omega

theorem rep_foldSamples (src : String) (ch : List ℚ) (ing : List ℚ)
    (st : ProcState) (h : Rep ing st) :
    Rep (ing ++ ch) (ch.foldl (fun s x => writeSample s src x) st) := by
  induction ch generalizing ing st with
  | nil => simpa using h
  | cons x ch ih =>
    have h2 := ih (ing ++ [x]) (writeSample st src x) (rep_writeSample ing st src x h)
    simpa [List.append_assoc] using h2

theorem rep_process (ing : List ℚ) (st : ProcState) (c : Option (List ℚ))
    (h : Rep ing st) : Rep (ing ++ c.getD []) (process st c) := by
  cases c with
  | none => simpa using h
  | some ch =>
    show Rep (ing ++ ch) (ch.foldl (fun s x => writeSample s _ x) st)
    exact rep_foldSamples _ ch ing st h

theorem rep_processCalls (ing : List ℚ) (st : ProcState)
    (calls : List (Option (List ℚ))) (h : Rep ing st) :
    Rep (ing ++ (calls.map (fun c => c.getD [])).flatten)
      (processCalls st calls) := by
  induction calls generalizing ing st with
  | nil => simpa using h
  | cons c calls ih =>
    have h2 := ih (ing ++ c.getD []) (process st c) (rep_process ing st c h)
    simpa [processCalls, List.append_assoc] using h2

theorem rep_init : Rep [] initState := by
  refine ⟨rfl, rfl, rfl, ?_, rfl⟩
  rw [bufferSize_eq]
  simp [initState]

/-- C5: audio is forwarded without gap or duplication in fixed-size
frames — for every sequence of `process` callbacks, the posted frames
are exactly the converted full 4096-sample groups of the ingested
sample stream in order, the pending buffer holds the residual suffix of
fewer than 4096 samples, every frame has exactly `bufferSize` samples,
and emitted plus residual counts equal the ingested count. -/
theorem claim5_no_gap_no_duplicate (calls : List (Option (List ℚ))) :
    ((processCalls initState calls).emitted.map WorkletMsg.audio).flatten
        = convertTo16BitPCM (((calls.map (fun c => c.getD [])).flatten).take
            (bufferSize * (processCalls initState calls).emitted.length))
      ∧ (processCalls initState calls).pendingBuffer
          = ((calls.map (fun c => c.getD [])).flatten).drop
              (bufferSize * (processCalls initState calls).emitted.length)
      ∧ (processCalls initState calls).emitted.all
          (fun m => m.audio.length == bufferSize) = true
      ∧ (processCalls initState calls).pendingBuffer.length < bufferSize
      ∧ bufferSize * (processCalls initState calls).emitted.length
          + (processCalls initState calls).pendingBuffer.length
        = ((calls.map (fun c => c.getD [])).flatten).length := by
  have h := rep_processCalls [] initState calls rep_init
  simpa [Rep] using h

theorem toInt16_range (n : ℤ) : -32768 ≤ toInt16 n ∧ toInt16 n ≤ 32767 := by
  unfold toInt16
  omega

theorem clamp_clamp (x : ℚ) : clamp (clamp x) = clamp x := by
  have h1 : -1 ≤ clamp x := le_max_left _ _
  have h2 : clamp x ≤ 1 := max_le (by norm_num) (min_le_left _ _)
  rw [clamp, min_eq_right h2, max_eq_right h1]

theorem ratTrunc_intCast (n : ℤ) : ratTrunc (n : ℚ) = n := by
  rw [ratTrunc]
  by_cases h : ((n : ℚ) < 0)
  · rw [if_pos h, ← Int.cast_neg, Int.floor_intCast, neg_neg]
  · rw [if_neg h, Int.floor_intCast]

theorem convertSample_one : convertSample 1 = 32767 := by
  have hc : clamp 1 = 1 := by
    rw [clamp, min_self, max_eq_right (by norm_num : (-1:ℚ) ≤ 1)]
  rw [convertSample, hc, if_neg (by norm_num : ¬ ((1:ℚ) < 0))]
  have hv : (1 : ℚ) * 32767 = ((32767 : ℤ) : ℚ) := by norm_num
  rw [hv, ratTrunc_intCast, toInt16]
  decide

theorem convertSample_two : convertSample 2 = 32767 := by
  have hc : clamp 2 = 1 := by
    rw [clamp, min_eq_left (by norm_num : (1:ℚ) ≤ 2),
      max_eq_right (by norm_num : (-1:ℚ) ≤ 1)]
  rw [convertSample, hc, if_neg (by norm_num : ¬ ((1:ℚ) < 0))]
  have hv : (1 : ℚ) * 32767 = ((32767 : ℤ) : ℚ) := by norm_num
  rw [hv, ratTrunc_intCast, toInt16]
  decide

theorem convertSample_neg_one : convertSample (-1) = -32768 := by
  have hc : clamp (-1) = -1 := by
    rw [clamp, min_eq_right (by norm_num : (-1:ℚ) ≤ 1), max_self]
  rw [convertSample, hc, if_pos (by norm_num : ((-1:ℚ) < 0))]
  have hv : (-1 : ℚ) * 32768 = ((-32768 : ℤ) : ℚ) := by norm_num
  rw [hv, ratTrunc_intCast, toInt16]
  decide

theorem convertSample_neg_two : convertSample (-2) = -32768 := by
  have hc : clamp (-2) = -1 := by
    rw [clamp, min_eq_right (by norm_num : (-2:ℚ) ≤ 1),
      max_eq_left (by norm_num : (-2:ℚ) ≤ -1)]
  rw [convertSample, hc, if_pos (by norm_num : ((-1:ℚ) < 0))]
  have hv : (-1 : ℚ) * 32768 = ((-32768 : ℤ) : ℚ) := by norm_num
  rw [hv, ratTrunc_intCast, toInt16]
  decide

/-- C6: the float-to-PCM conversion yields the truncated, clipped value
of the source formula, always within the signed 16-bit range; inputs
outside `[-1, 1]` behave as their clamped boundary value, the boundary
values map to -32768 and 32767, and the output list has the input's
length. -/
theorem claim6_pcm_conversion (x : ℚ) (xs : List ℚ) :
    convertSample x
        = toInt16 (ratTrunc
            (if clamp x < 0 then clamp x * 32768 else clamp x * 32767))
      ∧ -32768 ≤ convertSample x
      ∧ convertSample x ≤ 32767
      ∧ convertSample x = convertSample (clamp x)
      ∧ convertSample 2 = 32767
      ∧ convertSample (-2) = -32768
      ∧ convertSample 1 = 32767
      ∧ convertSample (-1) = -32768
      ∧ (convertTo16BitPCM xs).length = xs.length := by
  refine ⟨rfl, (toInt16_range _).1, (toInt16_range _).2, ?_, convertSample_two,
    convertSample_neg_two, convertSample_one, convertSample_neg_one,
    convert_length xs⟩
  rw [convertSample, convertSample, clamp_clamp]

theorem all_mic_writeSample (st : ProcState) (x : ℚ)
    (h : st.emitted.all (fun m => m.source == "mic") = true) :
    ((writeSample st "mic" x).emitted.all (fun m => m.source == "mic")) = true := by
  rw [writeSample]
  by_cases hfull : (st.pendingBuffer ++ [x]).length = bufferSize
  · rw [if_pos hfull]
    simp [List.all_append, h]
  · rw [if_neg hfull]
    exact h

theorem all_mic_foldSamples (ch : List ℚ) (st : ProcState)
    (h : st.emitted.all (fun m => m.source == "mic") = true) :
    ((ch.foldl (fun s x => writeSample s "mic" x) st).emitted.all
      (fun m => m.source == "mic")) = true := by
  induction ch generalizing st with
  | nil => exact h
  | cons x ch ih => exact ih _ (all_mic_writeSample st x h)

theorem all_mic_process (st : ProcState) (c : Option (List ℚ))
    (h : st.emitted.all (fun m => m.source == "mic") = true) :
    ((process st c).emitted.all (fun m => m.source == "mic")) = true := by
  cases c with
  | none => exact h
  | some ch =>
    cases ch with
    | nil => exact h
    | cons y ys =>
      show (((y :: ys).foldl (fun s x => writeSample s
          (if (y :: ys).length > 0 then "mic" else "display") x) st).emitted.all
            (fun m => m.source == "mic")) = true
      have hsrc : (if (y :: ys).length > 0 then "mic" else "display") = "mic" := by
        simp
      rw [hsrc]
      exact all_mic_foldSamples (y :: ys) st h

/-- C9: every message the worklet posts carries the source tag "mic" —
the ternary evaluates to "display" only for an empty input channel, and
an empty channel drives zero loop iterations, so no message with source
"display" is ever posted. -/
theorem claim9_source_always_mic (calls : List (Option (List ℚ))) :
    ((processCalls initState calls).emitted.all
      (fun m => m.source == "mic")) = true := by
  have hstep : ∀ (st : ProcState),
      st.emitted.all (fun m => m.source == "mic") = true →
      ∀ (calls2 : List (Option (List ℚ))),
        ((processCalls st calls2).emitted.all
          (fun m => m.source == "mic")) = true := by
    intro st hst calls2
    induction calls2 generalizing st with
    | nil => exact hst
    | cons c cs ih => exact ih _ (all_mic_process st c hst)
  exact hstep initState rfl calls

/-- C7 counterexample: at the concrete configuration (panelist "Alice",
candidate "Bob") the setup message built by `ws.onopen` carries exactly
the keys `type`, `speakers`, `panelist`, `candidate` — it contains no
summarization-interval field under any plausible key name, refuting the
claim that the setup message carries the summarization interval. -/
theorem claim7_counterexample :
    (setupMessage ⟨"Alice", "Bob"⟩).allKeys
        = ["type", "speakers", "panelist", "candidate"]
      ∧ "summarization_interval" ∉ (setupMessage ⟨"Alice", "Bob"⟩).allKeys
      ∧ "summarizationInterval" ∉ (setupMessage ⟨"Alice", "Bob"⟩).allKeys
      ∧ "interval" ∉ (setupMessage ⟨"Alice", "Bob"⟩).allKeys
      ∧ "summarization" ∉ (setupMessage ⟨"Alice", "Bob"⟩).allKeys := by
  refine ⟨rfl, ?_, ?_, ?_, ?_⟩ <;> decide

/-- C7 (amended): the only message sent when the session channel opens
has type "setup" and carries the speaker role labels (panelist and
candidate); it does not carry a summarization interval — its keys are
exactly `type`, `speakers`, `panelist`, `candidate`. -/
theorem claim7_setup_message (speakers : Speakers) :
    onopenMessages speakers = [setupMessage speakers]
      ∧ (setupMessage speakers).getStr "type" = some "setup"
      ∧ (((setupMessage speakers).getObj "speakers").bind
          (fun j => j.getStr "panelist")) = some speakers.panelist
      ∧ (((setupMessage speakers).getObj "speakers").bind
          (fun j => j.getStr "candidate")) = some speakers.candidate
      ∧ (setupMessage speakers).allKeys
          = ["type", "speakers", "panelist", "candidate"] :=
  ⟨rfl, rfl, rfl, rfl, rfl⟩

/-- C8: summary retention keeps exactly the latest snapshot — processing
a summary event sets `currentSummary` to that event's data, and after
any sequence of summary events ending in `d` the retained summary is
`d`, whatever was retained before. -/
theorem claim8_latest_summary_retained (st init : AppState) (d : SummaryData)
    (ds : List SummaryData) :
    (wsOnMessage st (ServerMsg.summary d)).currentSummary = some d
      ∧ (List.foldl wsOnMessage init
            ((ds.map ServerMsg.summary) ++ [ServerMsg.summary d])).currentSummary
        = some d := by
  refine ⟨rfl, ?_⟩
  rw [List.foldl_append]
  rfl

/-- C10: a worklet frame is sent over the channel iff the socket's
ready state is 1 (OPEN) when it arrives — over any sequence of frames
paired with the ready state observed at arrival, the messages sent are
exactly those of the open-state frames, in order, once each; frames
arriving in any other state are dropped and never delivered later. -/
theorem claim10_send_iff_open (events : List (Nat × WorkletMsg)) :
    sentMessages events
      = (events.filter (fun p => p.1 == 1)).map
          (fun p => { type := "audio", source := p.2.source,
                      data := p.2.audio }) := by
  induction events with
  | nil => rfl
  | cons p events ih =>
    have hstep : sentMessages (p :: events)
        = portOnMessage p.1 p.2 ++ sentMessages events := by
      rw [sentMessages, sentMessages, List.flatMap_cons]
    rw [hstep, ih, List.filter_cons]
    by_cases hp : p.1 = 1
    · simp [portOnMessage, hp]
    · simp [portOnMessage, hp]

end SpeechToText
